import Mathlib

/-!
# GoTXT: the scan / match / aggregate core of `process_log.go`

A shallow embedding of `loadKeywords`, `processFile` and the drain loop of `main`,
followed by the properties of the specification that are about them.

Modelling conventions.

* A Go `string` is taken to be valid UTF-8 and is represented by the list of its code
  points (`GoString`).  On such strings splitting at the one-byte separator `":"` and
  `strings.Contains` agree with their byte-level definitions.
* `strings.ToLower` maps `unicode.ToLower` over the runes of its argument.  The rune table
  is not part of the repository, so it is a parameter `lower : Char → Char` of every
  definition that lowercases; concrete evaluations use `Char.toLower`, which is
  `unicode.ToLower` on ASCII.
* A Go `map` is a `Finmap`: a finite map with no iteration order.
* `processFile` is modelled on the sequence of lines that its `bufio.Scanner` delivers;
  every execution of the mutex-guarded block is one atomic step `record`.
* The outcome of `os.Create` in the drain loop belongs to the file system; it is the
  parameter `create` of `drain`.
-/

namespace GoTXT

/-- A Go string, as the list of its code points. -/
abbrev GoString := List Char

/-- The aggregate state shared by all scans: `stats.matches` (the field `matches` of the
struct `Stats`, a `map[string]int`) and `resultSets` (a `map[string]map[string]struct{}`). -/
structure State where
  statsMatches : Finmap (fun _ : GoString => Nat)
  resultSets : Finmap (fun _ : GoString => Finset GoString)

instance : DecidableEq State := fun a b =>
  match a, b with
  | ⟨m₁, r₁⟩, ⟨m₂, r₂⟩ =>
    if h : m₁ = m₂ ∧ r₁ = r₂ then isTrue (by rw [h.1, h.2])
    else isFalse (fun e => h (by cases e; exact ⟨rfl, rfl⟩))

/-- The state built by `main` before any scan starts: both maps are empty. -/
def State.empty : State := { statsMatches := ∅, resultSets := ∅ }

/-- The value read by `stats.matches[keyword]`: the stored counter, `0` for a missing key. -/
def State.matchCounter (st : State) (keyword : GoString) : Nat :=
  (st.statsMatches.lookup keyword).getD 0

/-- The result set stored for a keyword, `none` when `resultSets` has no such key. -/
def State.resultSet (st : State) (keyword : GoString) : Option (Finset GoString) :=
  st.resultSets.lookup keyword

/-- The value of `len(resultSets[keyword])`: `0` for a missing key. -/
def State.uniqueCount (st : State) (keyword : GoString) : Nat :=
  ((st.resultSets.lookup keyword).getD ∅).card

/-! ## Library functions used by the program -/

/-- The first occurrence of the separator: the text before it and the text after it
(`strings.Index` followed by the two slicings of `genSplit`). -/
def cut (sep : Char) : GoString → Option (GoString × GoString)
  | [] => none
  | c :: cs =>
    if c = sep then some ([], cs)
    else
      match cut sep cs with
      | none => none
      | some (a, b) => some (c :: a, b)

/-- The loop of `strings.genSplit`: at most `n` further cuts, the remainder kept whole. -/
def genSplit (sep : Char) : Nat → GoString → List GoString
  | 0, s => [s]
  | n + 1, s =>
    match cut sep s with
    | none => [s]
    | some (a, rest) => a :: genSplit sep n rest

/-- The call `strings.SplitN(s, sep, n)` for a one-character separator and `n ≥ 0`: no part
for `n = 0`, otherwise at most `n` parts, `n` being first capped at `len(s) + 1`. The cap
never changes the result (`genSplit_fuel`), so the unit in which the length is counted
does not matter. -/
def SplitN (s : GoString) (sep : Char) (n : Nat) : List GoString :=
  if n = 0 then [] else genSplit sep (min n (s.length + 1) - 1) s

/-- The call `strings.Contains(s, substr)`: `substr` occurs in `s` at some position. -/
def Contains : GoString → GoString → Bool
  | [], substr => substr.isEmpty
  | c :: cs, substr => substr.isPrefixOf (c :: cs) || Contains cs substr

/-- The call `strings.ToLower(s)`, for the rune table `lower`. -/
def ToLower (lower : Char → Char) (s : GoString) : GoString := s.map lower

/-- The call `fmt.Sprintf("%s:%s", login, password)`. -/
def Sprintf (login password : GoString) : GoString := login ++ ':' :: password

/-- The predicate `unicode.IsSpace`. -/
def isSpace (c : Char) : Bool :=
  let n := c.toNat
  n = 0x09 || n = 0x0A || n = 0x0B || n = 0x0C || n = 0x0D || n = 0x20 || n = 0x85 ||
  n = 0xA0 || n = 0x1680 || (0x2000 ≤ n && n ≤ 0x200A) || n = 0x2028 || n = 0x2029 ||
  n = 0x202F || n = 0x205F || n = 0x3000

/-- The call `strings.TrimSpace(s)`. -/
def TrimSpace (s : GoString) : GoString :=
  ((s.dropWhile isSpace).reverse.dropWhile isSpace).reverse

/-! ## The program -/

/-- The function `loadKeywords`, on the lines of `keywords.txt`: every line is trimmed and
kept, in order, unless it is empty after trimming. -/
def loadKeywords (fileLines : List GoString) : List GoString :=
  (fileLines.map TrimSpace).filter (fun keyword => keyword ≠ [])

/-- The mutex-guarded block of `processFile` (source lines 67 to 75), one atomic step:
the counter of the keyword is incremented, the result set of the keyword is created when
missing, and the credential is put into it. -/
def record (keyword credentials : GoString) (st : State) : State :=
  let matches1 := st.statsMatches.insert keyword ((st.statsMatches.lookup keyword).getD 0 + 1)
  let sets1 :=
    if (st.resultSets.lookup keyword).isSome then st.resultSets
    else st.resultSets.insert keyword ∅
  let sets2 := sets1.insert keyword (insert credentials ((sets1.lookup keyword).getD ∅))
  { statsMatches := matches1, resultSets := sets2 }

/-- Source lines 54 to 61 of `processFile`: the line is split into at most three parts; with
fewer than three parts it is skipped, otherwise the parts are the url (lowercased), the
login and the password. -/
def parseLine (lower : Char → Char) (line : GoString) :
    Option (GoString × GoString × GoString) :=
  let parts := SplitN line ':' 3
  if parts.length < 3 then none
  else some (ToLower lower (parts.getD 0 []), parts.getD 1 [], parts.getD 2 [])

/-- Source lines 63 to 79 of `processFile`: the keywords are tried in order; at the first
one contained in the url the record is reported and the loop is left (`break`). -/
def keywordLoop (url login password : GoString) : List GoString → State → State
  | [], st => st
  | keyword :: rest, st =>
    if Contains url keyword then record keyword (Sprintf login password) st
    else keywordLoop url login password rest st

/-- One iteration of the scanning loop of `processFile` (source lines 53 to 79). -/
def processLine (lower : Char → Char) (keywords : List GoString) (st : State)
    (line : GoString) : State :=
  match parseLine lower line with
  | none => st
  | some (url, login, password) => keywordLoop url login password keywords st

/-- The scanning loop of `processFile`, on the lines delivered by the scanner. -/
def processFile (lower : Char → Char) (keywords : List GoString) (lines : List GoString)
    (st : State) : State :=
  lines.foldl (processLine lower keywords) st

/-- What the drain loop of `main` writes for one key of `resultSets` whose file it could
create: the lines of the file `<keyword>.txt` and the two numbers of the report. -/
structure Output where
  keyword : GoString
  fileLines : Finset GoString
  count : Nat
  unique : Nat
deriving DecidableEq

/-- The two ways in which one iteration of the drain loop of `main` ends: the file was
created, filled and reported, or `os.Create` failed, the error was printed and the loop
went on to the next key (`continue`) without a file and without a report. -/
inductive DrainResult where
  | written (output : Output)
  | createFailed (keyword : GoString)
deriving DecidableEq

/-- The drain loop of `main` (source lines 166 to 185): for every key of `resultSets`, in
no particular order, `os.Create` is called on `<outputDir>/<keyword>.txt`. Its outcome
belongs to the file system, not to the program, so it is the parameter `create`: whether
the call for the file of that keyword succeeds (every key is visited once, so a run asks
for each keyword at most once). On failure the iteration is abandoned; on success the file
receives the credentials of the set, one per line, and `stats.matches[keyword]` and the
size of the set are reported. The loop has no other test, in particular none for an empty
set. -/
def drain (create : GoString → Bool) (st : State) : Multiset DrainResult :=
  st.resultSets.entries.map
    (fun e =>
      if create e.1 then
        DrainResult.written
          { keyword := e.1, fileLines := e.2, count := st.matchCounter e.1,
            unique := e.2.card }
      else DrainResult.createFailed e.1)

/-- An outcome of `os.Create` used in evaluations, for keywords without a `..` part: the
output directory is the new, empty one that `main` has just made, so a file name that
holds a path separator points into a subdirectory that does not exist and cannot be
created, and every other name can. -/
def createInFreshDir (keyword : GoString) : Bool :=
  decide ('/' ∉ keyword)

/-- The aggregator applied to a sequence of calls `record(keyword, credential)`, in order. -/
def runRecords (calls : List (GoString × GoString)) (st : State) : State :=
  calls.foldl (fun acc call => record call.1 call.2 acc) st

/-- The aggregator call made by one iteration of the scanning loop, if it makes one: the
keyword at which the keyword loop stops, with the credential built there. -/
def lineCall (lower : Char → Char) (keywords : List GoString) (line : GoString) :
    Option (GoString × GoString) :=
  match parseLine lower line with
  | none => none
  | some (url, login, password) =>
    match keywords.find? (fun keyword => Contains url keyword) with
    | none => none
    | some keyword => some (keyword, Sprintf login password)

/-- The schedules of concurrent scans: `Interleaving ls sched` says that `sched` runs all
the steps of the sequences `ls`, every sequence in its own order, arbitrarily mixed. -/
inductive Interleaving {α : Type} : List (List α) → List α → Prop
  | done (ls : List (List α)) (h : ∀ l ∈ ls, l = []) : Interleaving ls []
  | step (pre post : List (List α)) (l : List α) (x : α) (sched : List α)
      (h : Interleaving (pre ++ l :: post) sched) :
      Interleaving (pre ++ (x :: l) :: post) (x :: sched)

/-- The aggregator calls of one scan, in the order in which the scan makes them. -/
def fileCalls (lower : Char → Char) (keywords : List GoString) (lines : List GoString) :
    List (GoString × GoString) :=
  lines.filterMap (lineCall lower keywords)

/-! ## The words of the specification -/

/-- Specification: the credentials passed in the calls made for keyword `K`. -/
def Spec.credentialsFor (K : GoString) (calls : List (GoString × GoString)) :
    List GoString :=
  (calls.filter (fun call => call.1 = K)).map (fun call => call.2)

/-- Specification: the url field of a line, the text before its first `':'`. -/
def Spec.urlField (line : GoString) : GoString :=
  line.takeWhile (fun c => c ≠ ':')

/-- Specification: the text of a line after its first `':'`. -/
def Spec.afterUrl (line : GoString) : GoString :=
  (line.dropWhile (fun c => c ≠ ':')).drop 1

/-- Specification: the login field, the text between the first and the second `':'`. -/
def Spec.loginField (line : GoString) : GoString :=
  (Spec.afterUrl line).takeWhile (fun c => c ≠ ':')

/-- Specification: the password field, all the text after the second `':'`. -/
def Spec.passwordField (line : GoString) : GoString :=
  ((Spec.afterUrl line).dropWhile (fun c => c ≠ ':')).drop 1

/-- Specification: the credential of a line, `login + ":" + password`. -/
def Spec.credential (line : GoString) : GoString :=
  Spec.loginField line ++ ":".toList ++ Spec.passwordField line

/-- Specification: the first keyword, in list order, that is a substring of the url. -/
def Spec.firstMatch (url : GoString) (keywords : List GoString) : Option GoString :=
  keywords.find? (fun keyword => decide (keyword <:+: url))

/-- Specification: the keyword a line is attributed to. The line must split into at least
three parts on `':'`, that is, hold at least two `':'`; the keyword is then the first match
of its lowercased url field. -/
def Spec.attribution (lower : Char → Char) (keywords : List GoString) (line : GoString) :
    Option GoString :=
  if 2 ≤ line.count ':' then Spec.firstMatch ((Spec.urlField line).map lower) keywords
  else none

/-- Specification: the lines of a file that are attributed to keyword `K`. -/
def Spec.linesOf (lower : Char → Char) (keywords : List GoString) (K : GoString)
    (lines : List GoString) : List GoString :=
  lines.filter (fun line => Spec.attribution lower keywords line = some K)

/-! ## Splitting -/

theorem cut_eq_none (sep : Char) (s : GoString) : cut sep s = none ↔ sep ∉ s := by
  induction s with
  | nil => simp [cut]
  | cons c cs ih =>
    by_cases h : c = sep
    · simp [cut, h]
    · have h2 : ¬ sep = c := fun e => h e.symm
      cases hc : cut sep cs with
      | none => simp [cut, h, h2, hc, ih.mp hc]
      | some p =>
        have : sep ∈ cs := by
          by_contra hn
          rw [ih.mpr hn] at hc
          cases hc
        simp [cut, h, hc, this]

theorem cut_eq_some (sep : Char) (s a b : GoString) (h : cut sep s = some (a, b)) :
    sep ∉ a ∧ s = a ++ sep :: b := by
  induction s generalizing a b with
  | nil => simp [cut] at h
  | cons c cs ih =>
    by_cases hc : c = sep
    · subst hc
      simp only [cut, if_true, Option.some.injEq, Prod.mk.injEq] at h
      obtain ⟨rfl, rfl⟩ := h
      simp
    · cases hcut : cut sep cs with
      | none => simp [cut, hc, hcut] at h
      | some p =>
        obtain ⟨a', b'⟩ := p
        simp only [cut, hc, if_false, hcut, Option.some.injEq, Prod.mk.injEq] at h
        obtain ⟨rfl, rfl⟩ := h
        obtain ⟨h1, h2⟩ := ih a' b' hcut
        refine ⟨?_, by rw [h2]; rfl⟩
        intro hm
        rcases List.mem_cons.mp hm with e | e
        · exact hc e.symm
        · exact h1 e

/-- A string with no separator in front of a separator: the cut is exactly there. -/
theorem cut_append (sep : Char) (a b : GoString) (h : sep ∉ a) :
    cut sep (a ++ sep :: b) = some (a, b) := by
  induction a with
  | nil => simp [cut]
  | cons c cs ih =>
    have hc : ¬ c = sep := fun e => h (by simp [e])
    have hcs : sep ∉ cs := fun e => h (List.mem_cons_of_mem _ e)
    simp [cut, hc, ih hcs]

theorem count_of_cut_none (sep : Char) (s : GoString) (h : cut sep s = none) :
    s.count sep = 0 :=
  List.count_eq_zero.mpr ((cut_eq_none sep s).mp h)

theorem count_of_cut_some (sep : Char) (s a b : GoString) (h : cut sep s = some (a, b)) :
    s.count sep = b.count sep + 1 := by
  obtain ⟨h1, h2⟩ := cut_eq_some sep s a b h
  rw [h2, List.count_append, List.count_eq_zero.mpr h1, List.count_cons_self]
  omega

/-- Spare cuts change nothing: the cap that `SplitN` puts on `n` is immaterial. -/
theorem genSplit_fuel (sep : Char) (n m : Nat) (s : GoString)
    (hn : s.count sep ≤ n) (hm : s.count sep ≤ m) : genSplit sep n s = genSplit sep m s := by
  induction n generalizing m s with
  | zero =>
    have h0 : s.count sep = 0 := by omega
    have hc : cut sep s = none := (cut_eq_none sep s).mpr (List.count_eq_zero.mp h0)
    cases m with
    | zero => rfl
    | succ m => simp [genSplit, hc]
  | succ n ih =>
    cases hc : cut sep s with
    | none =>
      cases m with
      | zero => simp [genSplit, hc]
      | succ m => simp [genSplit, hc]
    | some p =>
      obtain ⟨a, b⟩ := p
      have hcount := count_of_cut_some sep s a b hc
      cases m with
      | zero => omega
      | succ m =>
        simp only [genSplit, hc]
        rw [ih m b (by omega) (by omega)]

theorem SplitN_three (sep : Char) (s : GoString) : SplitN s sep 3 = genSplit sep 2 s := by
  have hlen : s.count sep ≤ s.length := List.count_le_length sep s
  simp only [SplitN, show ¬ (3 = 0) by decide, if_false]
  by_cases h : 2 ≤ s.length
  · rw [show min 3 (s.length + 1) - 1 = 2 by omega]
  · apply genSplit_fuel <;> omega

/-- The three cases of `SplitN(line, ":", 3)`, by the number of separators in the line. -/
theorem SplitN_three_cases (sep : Char) (s : GoString) :
    (s.count sep = 0 ∧ SplitN s sep 3 = [s]) ∨
    (s.count sep = 1 ∧ ∃ a b, SplitN s sep 3 = [a, b]) ∨
    (2 ≤ s.count sep ∧ ∃ a b c, SplitN s sep 3 = [a, b, c] ∧ sep ∉ a ∧ sep ∉ b ∧
      s = a ++ sep :: (b ++ sep :: c)) := by
  rw [SplitN_three]
  cases h1 : cut sep s with
  | none => exact Or.inl ⟨count_of_cut_none sep s h1, by simp [genSplit, h1]⟩
  | some p =>
    obtain ⟨a, r⟩ := p
    have hc1 := count_of_cut_some sep s a r h1
    obtain ⟨ha, hs⟩ := cut_eq_some sep s a r h1
    cases h2 : cut sep r with
    | none =>
      have hc2 := count_of_cut_none sep r h2
      exact Or.inr (Or.inl ⟨by omega, a, r, by simp [genSplit, h1, h2]⟩)
    | some q =>
      obtain ⟨b, c⟩ := q
      have hc2 := count_of_cut_some sep r b c h2
      obtain ⟨hb, hr⟩ := cut_eq_some sep r b c h2
      exact Or.inr (Or.inr ⟨by omega, a, b, c, by simp [genSplit, h1, h2], ha, hb,
        by rw [hs, hr]⟩)

theorem parseLine_eq_none (lower : Char → Char) (line : GoString) :
    parseLine lower line = none ↔ line.count ':' < 2 := by
  rcases SplitN_three_cases ':' line with ⟨h, e⟩ | ⟨h, a, b, e⟩ | ⟨h, a, b, c, e, _⟩
  · simp [parseLine, e, h]
  · simp [parseLine, e, h]
  · simp only [parseLine, e]
    constructor
    · intro hn
      simp at hn
    · intro hlt
      omega

theorem parseLine_eq_some (lower : Char → Char) (line url login password : GoString)
    (h : parseLine lower line = some (url, login, password)) :
    ∃ rawUrl, url = ToLower lower rawUrl ∧ ':' ∉ rawUrl ∧ ':' ∉ login ∧
      line = rawUrl ++ ':' :: (login ++ ':' :: password) := by
  rcases SplitN_three_cases ':' line with ⟨_, e⟩ | ⟨_, a, b, e⟩ | ⟨_, a, b, c, e, ha, hb, hs⟩
  · simp [parseLine, e] at h
  · simp [parseLine, e] at h
  · simp only [parseLine, e] at h
    simp at h
    obtain ⟨rfl, rfl, rfl⟩ := h
    exact ⟨a, rfl, ha, hb, hs⟩

theorem parseLine_append (lower : Char → Char) (rawUrl login password : GoString)
    (hu : ':' ∉ rawUrl) (hl : ':' ∉ login) :
    parseLine lower (rawUrl ++ ':' :: (login ++ ':' :: password)) =
      some (ToLower lower rawUrl, login, password) := by
  simp [parseLine, SplitN_three, genSplit, cut_append, hu, hl]

/-! ## The aggregator step -/

theorem State.ext_fields (a b : State) (h1 : a.statsMatches = b.statsMatches)
    (h2 : a.resultSets = b.resultSets) : a = b := by
  cases a
  cases b
  simp only [State.mk.injEq]
  exact ⟨h1, h2⟩

theorem record_resultSets (keyword credentials : GoString) (st : State) :
    (record keyword credentials st).resultSets =
      st.resultSets.insert keyword
        (insert credentials ((st.resultSets.lookup keyword).getD ∅)) := by
  unfold record
  cases h : st.resultSets.lookup keyword with
  | none => simp [Finmap.lookup_insert, Finmap.insert_insert]
  | some v => simp [h]

theorem lookup_record_statsMatches (keyword credentials K : GoString) (st : State) :
    (record keyword credentials st).statsMatches.lookup K =
      if K = keyword then some (st.matchCounter keyword + 1)
      else st.statsMatches.lookup K := by
  unfold record State.matchCounter
  by_cases h : K = keyword
  · subst h
    simp [Finmap.lookup_insert]
  · simp [h, Finmap.lookup_insert_of_ne]

theorem lookup_record_resultSets (keyword credentials K : GoString) (st : State) :
    (record keyword credentials st).resultSets.lookup K =
      if K = keyword then some (insert credentials ((st.resultSets.lookup keyword).getD ∅))
      else st.resultSets.lookup K := by
  rw [record_resultSets]
  by_cases h : K = keyword
  · subst h
    simp [Finmap.lookup_insert]
  · simp [h, Finmap.lookup_insert_of_ne]

theorem record_matchCounter (keyword credentials K : GoString) (st : State) :
    (record keyword credentials st).matchCounter K =
      st.matchCounter K + (if K = keyword then 1 else 0) := by
  rw [State.matchCounter, lookup_record_statsMatches]
  by_cases h : K = keyword
  · subst h
    simp
  · simp [h, State.matchCounter]

theorem record_resultSet (keyword credentials K : GoString) (st : State) :
    (record keyword credentials st).resultSet K =
      if K = keyword then some (insert credentials ((st.resultSet keyword).getD ∅))
      else st.resultSet K := by
  simp only [State.resultSet]
  exact lookup_record_resultSets keyword credentials K st

/-- Two aggregator steps commute, whatever their keywords and credentials. -/
theorem record_comm (k₁ c₁ k₂ c₂ : GoString) (st : State) :
    record k₁ c₁ (record k₂ c₂ st) = record k₂ c₂ (record k₁ c₁ st) := by
  apply State.ext_fields
  · apply Finmap.ext_lookup
    intro K
    simp only [lookup_record_statsMatches, record_matchCounter]
    by_cases h12 : k₁ = k₂
    · subst h12
      simp
    · have h21 : ¬ k₂ = k₁ := fun e => h12 e.symm
      by_cases h1 : K = k₁
      · subst h1
        simp [h12, h21]
      · by_cases h2 : K = k₂
        · subst h2
          simp [h12, h21]
        · simp [h1, h2, h12, h21]
  · apply Finmap.ext_lookup
    intro K
    simp only [lookup_record_resultSets]
    by_cases h12 : k₁ = k₂
    · subst h12
      by_cases h1 : K = k₁
      · simp [h1, Finset.Insert.comm c₁ c₂]
      · simp [h1]
    · have h21 : ¬ k₂ = k₁ := fun e => h12 e.symm
      by_cases h1 : K = k₁
      · subst h1
        simp [h12, h21]
      · by_cases h2 : K = k₂
        · subst h2
          simp [h12, h21]
        · simp [h1, h2, h12, h21]

/-- An aggregator step always changes the state: the counter of its keyword grows. -/
theorem record_ne (keyword credentials : GoString) (st : State) :
    record keyword credentials st ≠ st := by
  intro h
  have := record_matchCounter keyword credentials keyword st
  rw [h] at this
  simp at this

/-! ## Sequences of aggregator calls -/

theorem runRecords_cons (call : GoString × GoString) (calls : List (GoString × GoString))
    (st : State) :
    runRecords (call :: calls) st = runRecords calls (record call.1 call.2 st) := rfl

theorem runRecords_matchCounter (calls : List (GoString × GoString)) (K : GoString)
    (st : State) :
    (runRecords calls st).matchCounter K =
      st.matchCounter K + (calls.filter (fun call => call.1 = K)).length := by
  induction calls generalizing st with
  | nil => simp [runRecords]
  | cons call calls ih =>
    rw [runRecords_cons, ih, record_matchCounter]
    by_cases h : call.1 = K
    · simp [h, List.filter_cons]
      omega
    · have h2 : ¬ K = call.1 := fun e => h e.symm
      simp [h, h2, List.filter_cons]

theorem runRecords_resultSet (calls : List (GoString × GoString)) (K : GoString)
    (st : State) :
    (runRecords calls st).resultSet K =
      if Spec.credentialsFor K calls = [] then st.resultSet K
      else some ((st.resultSet K).getD ∅ ∪ (Spec.credentialsFor K calls).toFinset) := by
  induction calls generalizing st with
  | nil => simp [runRecords, Spec.credentialsFor]
  | cons call calls ih =>
    rw [runRecords_cons, ih, record_resultSet]
    by_cases h : call.1 = K
    · subst h
      have hc : Spec.credentialsFor call.1 (call :: calls) =
          call.2 :: Spec.credentialsFor call.1 calls := by
        simp [Spec.credentialsFor, List.filter_cons]
      rw [hc]
      by_cases hr : Spec.credentialsFor call.1 calls = []
      · simp [hr]
        ext x
        simp [or_comm]
      · simp [hr]
    · have h2 : ¬ K = call.1 := fun e => h e.symm
      have hc : Spec.credentialsFor K (call :: calls) = Spec.credentialsFor K calls := by
        simp [Spec.credentialsFor, List.filter_cons, h]
      rw [hc]
      simp [h2]

theorem runRecords_perm (calls₁ calls₂ : List (GoString × GoString)) (st : State)
    (h : calls₁.Perm calls₂) : runRecords calls₁ st = runRecords calls₂ st := by
  induction h generalizing st with
  | nil => rfl
  | cons x _ ih => simp only [runRecords_cons, ih]
  | swap x y l => simp only [runRecords_cons, record_comm]
  | trans _ _ ih₁ ih₂ => rw [ih₁, ih₂]

/-! ## The keyword loop and the scanning loop -/

theorem Contains_iff_isInfix (s substr : GoString) :
    Contains s substr = true ↔ substr <:+: s := by
  induction s with
  | nil => simp [Contains, List.isEmpty_iff]
  | cons c cs ih =>
    rw [Contains, Bool.or_eq_true, ih, List.isPrefixOf_iff_prefix, List.infix_cons_iff]

theorem keywordLoop_eq (url login password : GoString) (keywords : List GoString)
    (st : State) :
    keywordLoop url login password keywords st =
      match keywords.find? (fun keyword => Contains url keyword) with
      | none => st
      | some keyword => record keyword (Sprintf login password) st := by
  induction keywords with
  | nil => rfl
  | cons k ks ih =>
    by_cases h : Contains url k = true
    · simp [keywordLoop, List.find?_cons, h]
    · simp [keywordLoop, List.find?_cons, h, ih]

theorem processLine_eq (lower : Char → Char) (keywords : List GoString) (st : State)
    (line : GoString) :
    processLine lower keywords st line =
      match lineCall lower keywords line with
      | none => st
      | some call => record call.1 call.2 st := by
  unfold processLine lineCall
  cases hp : parseLine lower line with
  | none => rfl
  | some t =>
    obtain ⟨url, login, password⟩ := t
    simp only [keywordLoop_eq]
    cases hf : keywords.find? (fun keyword => Contains url keyword) with
    | none => rfl
    | some k => rfl

theorem processFile_eq_runRecords (lower : Char → Char) (keywords : List GoString)
    (lines : List GoString) (st : State) :
    processFile lower keywords lines st =
      runRecords (lines.filterMap (lineCall lower keywords)) st := by
  induction lines generalizing st with
  | nil => rfl
  | cons line lines ih =>
    have hstep : processFile lower keywords (line :: lines) st =
        processFile lower keywords lines (processLine lower keywords st line) := rfl
    rw [hstep, ih, processLine_eq]
    cases hc : lineCall lower keywords line with
    | none => simp [List.filterMap_cons, hc]
    | some call => simp [List.filterMap_cons, hc, runRecords_cons]

/-! ## The scanning loop against the words of the specification -/

theorem takeWhile_ne_append (sep : Char) (a b : GoString) (h : sep ∉ a) :
    (a ++ sep :: b).takeWhile (fun c => c ≠ sep) = a := by
  induction a with
  | nil => simp [List.takeWhile]
  | cons c cs ih =>
    have hc : c ≠ sep := fun e => h (by simp [e])
    have hcs : sep ∉ cs := fun e => h (List.mem_cons_of_mem _ e)
    simpa [List.takeWhile, hc] using ih hcs

theorem dropWhile_ne_append (sep : Char) (a b : GoString) (h : sep ∉ a) :
    (a ++ sep :: b).dropWhile (fun c => c ≠ sep) = sep :: b := by
  induction a with
  | nil => simp [List.dropWhile]
  | cons c cs ih =>
    have hc : c ≠ sep := fun e => h (by simp [e])
    have hcs : sep ∉ cs := fun e => h (List.mem_cons_of_mem _ e)
    simpa [List.dropWhile, hc] using ih hcs

theorem Spec.fields_of_append (rawUrl login password : GoString)
    (hu : ':' ∉ rawUrl) (hl : ':' ∉ login) :
    Spec.urlField (rawUrl ++ ':' :: (login ++ ':' :: password)) = rawUrl ∧
    Spec.loginField (rawUrl ++ ':' :: (login ++ ':' :: password)) = login ∧
    Spec.passwordField (rawUrl ++ ':' :: (login ++ ':' :: password)) = password := by
  have h1 : Spec.afterUrl (rawUrl ++ ':' :: (login ++ ':' :: password)) =
      login ++ ':' :: password := by
    rw [Spec.afterUrl, dropWhile_ne_append ':' rawUrl _ hu]
    rfl
  refine ⟨takeWhile_ne_append ':' rawUrl _ hu, ?_, ?_⟩
  · rw [Spec.loginField, h1, takeWhile_ne_append ':' login _ hl]
  · rw [Spec.passwordField, h1, dropWhile_ne_append ':' login _ hl]
    rfl

theorem find_Contains_eq (url : GoString) (keywords : List GoString) :
    keywords.find? (fun keyword => Contains url keyword) = Spec.firstMatch url keywords := by
  unfold Spec.firstMatch
  congr 1
  funext keyword
  rw [Bool.eq_iff_iff, Contains_iff_isInfix]
  simp

theorem lineCall_eq_spec (lower : Char → Char) (keywords : List GoString)
    (line : GoString) :
    lineCall lower keywords line =
      (Spec.attribution lower keywords line).map (fun K => (K, Spec.credential line)) := by
  by_cases hcount : 2 ≤ line.count ':'
  · cases hp : parseLine lower line with
    | none =>
      have := (parseLine_eq_none lower line).mp hp
      omega
    | some t =>
      obtain ⟨url, login, password⟩ := t
      obtain ⟨rawUrl, rfl, hu, hl, hline⟩ := parseLine_eq_some lower line _ _ _ hp
      obtain ⟨f1, f2, f3⟩ := Spec.fields_of_append rawUrl login password hu hl
      rw [← hline] at f1 f2 f3
      simp only [lineCall, hp, find_Contains_eq, Spec.attribution, hcount, if_true,
        Spec.credential, f1, f2, f3, ToLower]
      cases Spec.firstMatch (List.map lower rawUrl) keywords with
      | none => rfl
      | some K => simp [Sprintf]
  · have hp : parseLine lower line = none := (parseLine_eq_none lower line).mpr (by omega)
    simp [lineCall, hp, Spec.attribution, hcount]

theorem calls_filter_eq (lower : Char → Char) (keywords : List GoString) (K : GoString)
    (lines : List GoString) :
    (lines.filterMap (lineCall lower keywords)).filter (fun call => call.1 = K) =
      (Spec.linesOf lower keywords K lines).map (fun line => (K, Spec.credential line)) := by
  induction lines with
  | nil => rfl
  | cons line lines ih =>
    simp only [List.filterMap_cons, Spec.linesOf, lineCall_eq_spec] at ih ⊢
    cases ha : Spec.attribution lower keywords line with
    | none => simp [ih, List.filter_cons, ha]
    | some k =>
      by_cases hk : k = K
      · subst hk
        simp [List.filter_cons, ih, ha]
      · simp [List.filter_cons, hk, ih, ha]

theorem credentialsFor_calls (lower : Char → Char) (keywords : List GoString)
    (K : GoString) (lines : List GoString) :
    Spec.credentialsFor K (lines.filterMap (lineCall lower keywords)) =
      (Spec.linesOf lower keywords K lines).map Spec.credential := by
  rw [Spec.credentialsFor, calls_filter_eq, List.map_map]
  rfl

theorem State.empty_matchCounter (K : GoString) : State.empty.matchCounter K = 0 := by
  simp [State.empty, State.matchCounter, Finmap.lookup_empty]

theorem State.empty_resultSet (K : GoString) : State.empty.resultSet K = none := by
  simp [State.empty, State.resultSet, Finmap.lookup_empty]

theorem processFile_matchCounter (lower : Char → Char) (keywords lines : List GoString)
    (K : GoString) (st : State) :
    (processFile lower keywords lines st).matchCounter K =
      st.matchCounter K + (Spec.linesOf lower keywords K lines).length := by
  rw [processFile_eq_runRecords, runRecords_matchCounter, calls_filter_eq]
  simp

theorem processFile_resultSet (lower : Char → Char) (keywords lines : List GoString)
    (K : GoString) (st : State) :
    (processFile lower keywords lines st).resultSet K =
      (if Spec.linesOf lower keywords K lines = [] then st.resultSet K
       else some ((st.resultSet K).getD ∅ ∪
        ((Spec.linesOf lower keywords K lines).map Spec.credential).toFinset)) := by
  rw [processFile_eq_runRecords, runRecords_resultSet, credentialsFor_calls]
  simp

theorem fileCalls_flatten (lower : Char → Char) (keywords : List GoString)
    (files : List (List GoString)) :
    (files.map (fileCalls lower keywords)).flatten =
      fileCalls lower keywords files.flatten := by
  induction files with
  | nil => rfl
  | cons f fs ih =>
    simp only [List.map_cons, List.flatten_cons, ih, fileCalls, List.filterMap_append]

/-! ## Schedules -/

theorem flatten_eq_nil_of_all_nil {α : Type} (ls : List (List α)) (h : ∀ l ∈ ls, l = []) :
    ls.flatten = [] := by
  induction ls with
  | nil => rfl
  | cons l ls ih =>
    rw [List.flatten_cons, h l (by simp), ih (fun l' hl' => h l' (List.mem_cons_of_mem _ hl'))]
    rfl

/-- A schedule is a rearrangement of all the steps of its sequences. -/
theorem Interleaving.perm {α : Type} {ls : List (List α)} {sched : List α}
    (h : Interleaving ls sched) : sched.Perm ls.flatten := by
  induction h with
  | done ls hall => rw [flatten_eq_nil_of_all_nil ls hall]
  | step pre post l x sched _ ih =>
    have h1 : (pre ++ (x :: l) :: post).flatten = pre.flatten ++ x :: (l ++ post.flatten) := by
      simp
    have h2 : (pre ++ l :: post).flatten = pre.flatten ++ (l ++ post.flatten) := by
      simp
    rw [h1]
    rw [h2] at ih
    exact (List.Perm.cons x ih).trans List.perm_middle.symm

theorem Interleaving.cons_nil {α : Type} {ls : List (List α)} {sched : List α}
    (h : Interleaving ls sched) : Interleaving ([] :: ls) sched := by
  induction h with
  | done ls hall =>
    apply Interleaving.done
    intro l hl
    rcases List.mem_cons.mp hl with e | e
    · exact e
    · exact hall l e
  | step pre post l x sched _ ih =>
    exact Interleaving.step ([] :: pre) post l x sched ih

/-- Running the sequences one after another is one of the schedules. -/
theorem Interleaving.sequential {α : Type} (ls : List (List α)) :
    Interleaving ls ls.flatten := by
  induction ls with
  | nil => exact Interleaving.done [] (by simp)
  | cons l ls ih =>
    induction l with
    | nil => exact Interleaving.cons_nil ih
    | cons x l ihl => exact Interleaving.step [] ls l x (l ++ ls.flatten) ihl

/-! ## Reachable states -/

theorem attribution_mem (lower : Char → Char) (keywords : List GoString)
    (line K : GoString) (h : Spec.attribution lower keywords line = some K) :
    K ∈ keywords := by
  unfold Spec.attribution at h
  split at h
  · exact List.mem_of_find?_eq_some h
  · cases h

/-- In a state reached from the empty one, a keyword either has no result set and count
zero, or it is one of the keywords and has a result set that is not empty and no larger
than its count. -/
theorem processFile_empty_cases (lower : Char → Char) (keywords lines : List GoString)
    (K : GoString) :
    ((processFile lower keywords lines State.empty).resultSets.lookup K = none ∧
      (processFile lower keywords lines State.empty).matchCounter K = 0) ∨
    (∃ s, (processFile lower keywords lines State.empty).resultSets.lookup K = some s ∧
      K ∈ keywords ∧ 1 ≤ s.card ∧
      s.card ≤ (processFile lower keywords lines State.empty).matchCounter K) := by
  have hc := processFile_matchCounter lower keywords lines K State.empty
  have hr := processFile_resultSet lower keywords lines K State.empty
  rw [State.empty_matchCounter] at hc
  rw [State.empty_resultSet] at hr
  simp only [State.resultSet] at hr
  cases hL : Spec.linesOf lower keywords K lines with
  | nil =>
    left
    rw [hL] at hc hr
    exact ⟨by simpa using hr, by simpa using hc⟩
  | cons line rest =>
    right
    rw [hL] at hc hr
    have hmem : line ∈ Spec.linesOf lower keywords K lines := by rw [hL]; simp
    have hattr : Spec.attribution lower keywords line = some K := by
      simpa using (List.mem_filter.mp hmem).2
    refine ⟨_, by simpa using hr, attribution_mem lower keywords line K hattr, ?_, ?_⟩
    · apply Finset.card_pos.mpr
      exact ⟨Spec.credential line, by simp⟩
    · rw [hc]
      calc _ ≤ (List.map Spec.credential (line :: rest)).length := by
            simpa using List.toFinset_card_le (List.map Spec.credential (line :: rest))
        _ = _ := by simp

theorem written_mem_drain (create : GoString → Bool) (st : State) (o : Output) :
    DrainResult.written o ∈ drain create st ↔
      create o.keyword = true ∧ st.resultSets.lookup o.keyword = some o.fileLines ∧
      o.count = st.matchCounter o.keyword ∧ o.unique = o.fileLines.card := by
  unfold drain
  rw [Multiset.mem_map]
  constructor
  · rintro ⟨⟨K, s⟩, he, hres⟩
    by_cases hc : create K = true
    · simp only [hc, if_true, DrainResult.written.injEq] at hres
      subst hres
      exact ⟨hc, Finmap.mem_lookup_iff.mpr he, rfl, rfl⟩
    · simp [hc] at hres
  · rintro ⟨hc, h1, h2, h3⟩
    refine ⟨⟨o.keyword, o.fileLines⟩, Finmap.mem_lookup_iff.mp h1, ?_⟩
    cases o
    simp only [hc, if_true, DrainResult.written.injEq, Output.mk.injEq, true_and]
    exact ⟨h2.symm, h3.symm⟩

theorem createFailed_mem_drain (create : GoString → Bool) (st : State) (K : GoString) :
    DrainResult.createFailed K ∈ drain create st ↔
      create K = false ∧ K ∈ st.resultSets.keys := by
  unfold drain
  rw [Multiset.mem_map, Finmap.mem_keys, ← Finmap.lookup_isSome]
  constructor
  · rintro ⟨⟨K', s⟩, he, hres⟩
    by_cases hc : create K' = true
    · simp [hc] at hres
    · simp only [hc, DrainResult.createFailed.injEq] at hres
      simp only [Bool.false_eq_true, if_false, DrainResult.createFailed.injEq] at hres
      subst hres
      have := Finmap.mem_lookup_iff.mpr he
      rw [Option.mem_def] at this
      exact ⟨by simpa using hc, by simp [this]⟩
  · rintro ⟨hc, hK⟩
    obtain ⟨s, hs⟩ := Option.isSome_iff_exists.mp hK
    exact ⟨⟨K, s⟩, Finmap.mem_lookup_iff.mp hs, by simp [hc]⟩

/-! ## Credentials -/

theorem Sprintf_injective (l₁ p₁ l₂ p₂ : GoString) (h₁ : ':' ∉ l₁) (h₂ : ':' ∉ l₂) :
    Sprintf l₁ p₁ = Sprintf l₂ p₂ ↔ l₁ = l₂ ∧ p₁ = p₂ := by
  constructor
  · intro h
    have e1 := cut_append ':' l₁ p₁ h₁
    have e2 := cut_append ':' l₂ p₂ h₂
    unfold Sprintf at h
    rw [h, e2] at e1
    simp only [Option.some.injEq, Prod.mk.injEq] at e1
    exact ⟨e1.1.symm, e1.2.symm⟩
  · rintro ⟨rfl, rfl⟩
    rfl

/-! ## The claims -/

/-- C1. Scanning a file from the empty aggregate state: for every keyword `K`, the final
match counter of `K` is the number of lines that hold at least two `':'` and whose first
matching keyword on the lowercased url field is `K`; the result set of `K` is exactly the
set of the credentials `login + ":" + password` of those lines, and `resultSets` has no
entry for `K` when there is no such line. -/
theorem processFile_spec (lower : Char → Char) (keywords lines : List GoString)
    (K : GoString) :
    (processFile lower keywords lines State.empty).matchCounter K =
      (Spec.linesOf lower keywords K lines).length ∧
    (processFile lower keywords lines State.empty).resultSet K =
      (if Spec.linesOf lower keywords K lines = [] then none
       else some ((Spec.linesOf lower keywords K lines).map Spec.credential).toFinset) := by
  rw [processFile_matchCounter, processFile_resultSet, State.empty_matchCounter,
    State.empty_resultSet]
  constructor
  · simp
  · by_cases h : Spec.linesOf lower keywords K lines = []
    · simp [h]
    · simp [h]

/-- C1, the end-to-end scenario: keyword `shop` and the lines `shop.com:alice:pw1` (twice),
`other.com:bob:pw2` and `notaline` give count 2, the single credential `alice:pw1`, unique
count 1, and `shop` is the only key of `resultSets`. -/
theorem processFile_spec_witness :
    (processFile Char.toLower ["shop".toList]
      ["shop.com:alice:pw1".toList, "shop.com:alice:pw1".toList,
       "other.com:bob:pw2".toList, "notaline".toList] State.empty).matchCounter
        "shop".toList = 2 ∧
    (processFile Char.toLower ["shop".toList]
      ["shop.com:alice:pw1".toList, "shop.com:alice:pw1".toList,
       "other.com:bob:pw2".toList, "notaline".toList] State.empty).resultSet
        "shop".toList = some {"alice:pw1".toList} ∧
    (processFile Char.toLower ["shop".toList]
      ["shop.com:alice:pw1".toList, "shop.com:alice:pw1".toList,
       "other.com:bob:pw2".toList, "notaline".toList] State.empty).uniqueCount
        "shop".toList = 1 ∧
    (processFile Char.toLower ["shop".toList]
      ["shop.com:alice:pw1".toList, "shop.com:alice:pw1".toList,
       "other.com:bob:pw2".toList, "notaline".toList] State.empty).resultSets.keys =
        {"shop".toList} :=
  ⟨(processFile_spec Char.toLower ["shop".toList]
      ["shop.com:alice:pw1".toList, "shop.com:alice:pw1".toList,
       "other.com:bob:pw2".toList, "notaline".toList] "shop".toList).1.trans (by decide),
   (processFile_spec Char.toLower ["shop".toList]
      ["shop.com:alice:pw1".toList, "shop.com:alice:pw1".toList,
       "other.com:bob:pw2".toList, "notaline".toList] "shop".toList).2.trans (by decide),
   by decide, by decide⟩

/-- C2. The line parser rejects a line exactly when it holds fewer than two `':'`.
Otherwise it yields, as the url, the text before the first `':'` with every character
replaced by its lowercase; as the login, the text between the first and the second `':'`,
unchanged; and as the password, all the text after the second `':'`, unchanged, further
`':'` included. Neither the raw url nor the login holds a `':'`, and raw url, `':'`, login,
`':'` and password, put together, give the line back. -/
theorem parseLine_spec (lower : Char → Char) (line : GoString) :
    (parseLine lower line = none ↔ line.count ':' < 2) ∧
    (2 ≤ line.count ':' →
      ∃ rawUrl login password,
        parseLine lower line = some (rawUrl.map lower, login, password) ∧
        rawUrl = Spec.urlField line ∧ login = Spec.loginField line ∧
        password = Spec.passwordField line ∧
        ':' ∉ rawUrl ∧ ':' ∉ login ∧
        rawUrl ++ ":".toList ++ login ++ ":".toList ++ password = line) := by
  refine ⟨parseLine_eq_none lower line, fun hcount => ?_⟩
  cases hp : parseLine lower line with
  | none =>
    have := (parseLine_eq_none lower line).mp hp
    omega
  | some t =>
    obtain ⟨url, login, password⟩ := t
    obtain ⟨rawUrl, rfl, hu, hl, hline⟩ := parseLine_eq_some lower line _ _ _ hp
    obtain ⟨f1, f2, f3⟩ := Spec.fields_of_append rawUrl login password hu hl
    rw [← hline] at f1 f2 f3
    exact ⟨rawUrl, login, password, rfl, f1.symm, f2.symm, f3.symm, hu, hl,
      by rw [hline]; simp⟩

/-- C2, the password-with-delimiter property: `site.com:user1:pa:ss:word` has at least two
`':'` and parses to url `site.com`, login `user1`, password `pa:ss:word`; and the line
`Site.COM:User1:pa:ss:Word` parses to the lowercased url `site.com` with the login `User1`
and the password `pa:ss:Word` as written. -/
theorem parseLine_spec_witness :
    2 ≤ "site.com:user1:pa:ss:word".toList.count ':' ∧
    parseLine Char.toLower "site.com:user1:pa:ss:word".toList =
      some ("site.com".toList, "user1".toList, "pa:ss:word".toList) ∧
    2 ≤ "Site.COM:User1:pa:ss:Word".toList.count ':' ∧
    parseLine Char.toLower "Site.COM:User1:pa:ss:Word".toList =
      some ("site.com".toList, "User1".toList, "pa:ss:Word".toList) := by
  refine ⟨by decide, ?_, by decide, ?_⟩
  · obtain ⟨rawUrl, login, password, hparse, hu, hl, hp, -⟩ :=
      (parseLine_spec Char.toLower "site.com:user1:pa:ss:word".toList).2 (by decide)
    rw [hparse, hu, hl, hp]
    decide
  · obtain ⟨rawUrl, login, password, hparse, hu, hl, hp, -⟩ :=
      (parseLine_spec Char.toLower "Site.COM:User1:pa:ss:Word".toList).2 (by decide)
    rw [hparse, hu, hl, hp]
    decide

/-- C3. The keyword loop attributes a record to the first keyword, in list order, that is
a substring of the url, and to that keyword only: the loop makes the one aggregator call
for it and leaves the counter and the result set of every other keyword as they were. The
loop leaves the state untouched exactly when no keyword of the list is a substring of the
url. -/
theorem keywordLoop_first_match (url login password : GoString) (keywords : List GoString)
    (st : State) :
    (∀ pre k post, keywords = pre ++ k :: post → (∀ k' ∈ pre, ¬ k' <:+: url) → k <:+: url →
      keywordLoop url login password keywords st = record k (Sprintf login password) st ∧
      ∀ K, K ≠ k →
        (keywordLoop url login password keywords st).matchCounter K = st.matchCounter K ∧
        (keywordLoop url login password keywords st).resultSet K = st.resultSet K) ∧
    (keywordLoop url login password keywords st = st ↔ ∀ k ∈ keywords, ¬ k <:+: url) := by
  constructor
  · intro pre k post hk hpre hmatch
    have hloop : keywordLoop url login password keywords st =
        record k (Sprintf login password) st := by
      subst hk
      induction pre with
      | nil => simp [keywordLoop, (Contains_iff_isInfix url k).mpr hmatch]
      | cons p ps ih =>
        have hp : Contains url p = false := by
          have := hpre p (by simp)
          rw [← Contains_iff_isInfix] at this
          simpa using this
        simp only [List.cons_append, keywordLoop, hp]
        exact ih (fun k' hk' => hpre k' (List.mem_cons_of_mem _ hk'))
    refine ⟨hloop, fun K hK => ?_⟩
    rw [hloop, record_matchCounter, record_resultSet]
    simp [hK]
  · rw [keywordLoop_eq]
    cases hf : keywords.find? (fun keyword => Contains url keyword) with
    | none =>
      simp only [true_iff]
      intro k hk
      have := List.find?_eq_none.mp hf k hk
      rw [← Contains_iff_isInfix]
      exact this
    | some k =>
      have hk : Contains url k = true := by simpa using List.find?_some hf
      have hmem : k ∈ keywords := List.mem_of_find?_eq_some hf
      simp only [record_ne, false_iff]
      intro hall
      exact hall k hmem ((Contains_iff_isInfix url k).mp hk)

/-- C3, the first-match property: with keywords `bank`, `example` and url
`mybank.example.com` the record goes to `bank`; `example`, also a substring of the url,
gets neither a count nor a result set. -/
theorem keywordLoop_first_match_witness :
    "bank".toList <:+: "mybank.example.com".toList ∧
    "example".toList <:+: "mybank.example.com".toList ∧
    keywordLoop "mybank.example.com".toList "alice".toList "pw1".toList
        ["bank".toList, "example".toList] State.empty =
      record "bank".toList (Sprintf "alice".toList "pw1".toList) State.empty ∧
    (keywordLoop "mybank.example.com".toList "alice".toList "pw1".toList
        ["bank".toList, "example".toList] State.empty).matchCounter "example".toList = 0 ∧
    (keywordLoop "mybank.example.com".toList "alice".toList "pw1".toList
        ["bank".toList, "example".toList] State.empty).resultSet "example".toList = none ∧
    (keywordLoop "mybank.example.com".toList "alice".toList "pw1".toList
        ["bank".toList, "example".toList] State.empty).resultSets.keys =
      {"bank".toList} :=
  ⟨by decide, by decide,
   ((keywordLoop_first_match "mybank.example.com".toList "alice".toList "pw1".toList
      ["bank".toList, "example".toList] State.empty).1 [] "bank".toList ["example".toList]
      rfl (by simp) (by decide)).1,
   (((keywordLoop_first_match "mybank.example.com".toList "alice".toList "pw1".toList
      ["bank".toList, "example".toList] State.empty).1 [] "bank".toList ["example".toList]
      rfl (by simp) (by decide)).2 "example".toList (by decide)).1.trans (by decide),
   (((keywordLoop_first_match "mybank.example.com".toList "alice".toList "pw1".toList
      ["bank".toList, "example".toList] State.empty).1 [] "bank".toList ["example".toList]
      rfl (by simp) (by decide)).2 "example".toList (by decide)).2.trans (by decide),
   by decide⟩

/-- C4, the failing input. The keyword file line `Shop` is loaded as the keyword `Shop`,
unchanged; the line `shop.com:alice:pw1` is a valid record whose url equals the keyword up
to letter case (the lowercased keyword is a substring of the lowercased url), and yet the
scan reports nothing for it: the keyword is compared as written, only the url is
lowercased. The keyword `shop` does match the line `SHOP.com:alice:pw1`. -/
theorem uppercase_keyword_never_matches :
    loadKeywords ["Shop".toList] = ["Shop".toList] ∧
    parseLine Char.toLower "shop.com:alice:pw1".toList =
      some ("shop.com".toList, "alice".toList, "pw1".toList) ∧
    ToLower Char.toLower "Shop".toList <:+: ToLower Char.toLower "shop.com".toList ∧
    lineCall Char.toLower (loadKeywords ["Shop".toList]) "shop.com:alice:pw1".toList = none ∧
    processLine Char.toLower (loadKeywords ["Shop".toList]) State.empty
      "shop.com:alice:pw1".toList = State.empty ∧
    lineCall Char.toLower (loadKeywords ["shop".toList]) "SHOP.com:alice:pw1".toList =
      some ("shop".toList, "alice:pw1".toList) := by
  decide

/-- What the code does provide: a keyword that is already lowercase matches a url exactly
when it is a substring of the url up to the letter case of the url. -/
theorem lowercase_keyword_matches (lower : Char → Char) (rawUrl keyword : GoString)
    (h : ToLower lower keyword = keyword) :
    Contains (ToLower lower rawUrl) keyword = true ↔
      ToLower lower keyword <:+: ToLower lower rawUrl := by
  rw [h, Contains_iff_isInfix]

/-- C8. A line with fewer than two `':'` makes no aggregator call: the per-line step
returns the state it was given, whatever the state and the keywords. The step is a total
function, so no failure path exists. -/
theorem processLine_malformed (lower : Char → Char) (keywords : List GoString)
    (st : State) (line : GoString) (h : line.count ':' < 2) :
    lineCall lower keywords line = none ∧ processLine lower keywords st line = st := by
  have hp : parseLine lower line = none := (parseLine_eq_none lower line).mpr h
  simp [lineCall, processLine, hp]

/-- C8 on the malformed line `notaline`, in a state that already holds a match. -/
theorem processLine_malformed_witness :
    "notaline".toList.count ':' < 2 ∧
    lineCall Char.toLower ["shop".toList] "notaline".toList = none ∧
    processLine Char.toLower ["shop".toList]
      (record "shop".toList "alice:pw1".toList State.empty) "notaline".toList =
      record "shop".toList "alice:pw1".toList State.empty :=
  ⟨by decide,
   processLine_malformed Char.toLower ["shop".toList]
     (record "shop".toList "alice:pw1".toList State.empty) "notaline".toList (by decide)⟩

/-- C5, the dedup property. For every sequence of aggregator calls applied to the empty
state and every keyword `K`, the final size of the result set of `K` is the number of
distinct credentials passed in the calls made for `K`; any rearrangement of the calls
gives the same size. -/
theorem runRecords_dedup (calls : List (GoString × GoString)) (K : GoString) :
    (runRecords calls State.empty).uniqueCount K =
      (Spec.credentialsFor K calls).toFinset.card ∧
    ∀ calls' : List (GoString × GoString), calls'.Perm calls →
      (runRecords calls' State.empty).uniqueCount K =
        (Spec.credentialsFor K calls).toFinset.card := by
  have key : (runRecords calls State.empty).uniqueCount K =
      (Spec.credentialsFor K calls).toFinset.card := by
    have hr := runRecords_resultSet calls K State.empty
    rw [State.empty_resultSet] at hr
    simp only [State.resultSet] at hr
    rw [State.uniqueCount, hr]
    by_cases h : Spec.credentialsFor K calls = []
    · simp [h]
    · simp [h]
  exact ⟨key, fun calls' hperm => by rw [runRecords_perm calls' calls State.empty hperm, key]⟩

/-- C5 on four calls: two distinct credentials for `shop`, one of them passed twice, and
one call for `bank`, in two different orders. -/
theorem runRecords_dedup_witness :
    (Spec.credentialsFor "shop".toList
      [("shop".toList, "a:1".toList), ("bank".toList, "c:3".toList),
       ("shop".toList, "b:2".toList), ("shop".toList, "a:1".toList)]).toFinset.card = 2 ∧
    (runRecords
      [("shop".toList, "a:1".toList), ("bank".toList, "c:3".toList),
       ("shop".toList, "b:2".toList), ("shop".toList, "a:1".toList)]
      State.empty).uniqueCount "shop".toList = 2 ∧
    (runRecords
      [("bank".toList, "c:3".toList), ("shop".toList, "a:1".toList),
       ("shop".toList, "b:2".toList), ("shop".toList, "a:1".toList)]
      State.empty).uniqueCount "shop".toList = 2 :=
  ⟨by decide,
   (runRecords_dedup
      [("shop".toList, "a:1".toList), ("bank".toList, "c:3".toList),
       ("shop".toList, "b:2".toList), ("shop".toList, "a:1".toList)]
      "shop".toList).1.trans (by decide),
   ((runRecords_dedup
      [("shop".toList, "a:1".toList), ("bank".toList, "c:3".toList),
       ("shop".toList, "b:2".toList), ("shop".toList, "a:1".toList)]
      "shop".toList).2
      [("bank".toList, "c:3".toList), ("shop".toList, "a:1".toList),
       ("shop".toList, "b:2".toList), ("shop".toList, "a:1".toList)]
      (List.Perm.swap _ _ _)).trans (by decide)⟩

/-- C6, the count property. For every sequence of aggregator calls applied to the empty
state and every keyword `K`, the final match counter of `K` is the number of calls whose
keyword is `K`, repeated credentials included; it is `0` when no call names `K`. -/
theorem runRecords_count (calls : List (GoString × GoString)) (K : GoString) :
    (runRecords calls State.empty).matchCounter K =
      (calls.filter (fun call => call.1 = K)).length ∧
    ((∀ call ∈ calls, call.1 ≠ K) → (runRecords calls State.empty).matchCounter K = 0) := by
  have key : (runRecords calls State.empty).matchCounter K =
      (calls.filter (fun call => call.1 = K)).length := by
    rw [runRecords_matchCounter, State.empty_matchCounter]
    simp
  refine ⟨key, fun hall => ?_⟩
  rw [key, List.length_eq_zero, List.filter_eq_nil_iff]
  intro call hcall
  simpa using hall call hcall

/-- C6 on four calls: three calls for `shop` (one credential passed twice) count 3, and
the keyword `mail`, never recorded, counts 0. -/
theorem runRecords_count_witness :
    (runRecords
      [("shop".toList, "a:1".toList), ("bank".toList, "c:3".toList),
       ("shop".toList, "b:2".toList), ("shop".toList, "a:1".toList)]
      State.empty).matchCounter "shop".toList = 3 ∧
    (runRecords
      [("shop".toList, "a:1".toList), ("bank".toList, "c:3".toList),
       ("shop".toList, "b:2".toList), ("shop".toList, "a:1".toList)]
      State.empty).matchCounter "mail".toList = 0 :=
  ⟨(runRecords_count
      [("shop".toList, "a:1".toList), ("bank".toList, "c:3".toList),
       ("shop".toList, "b:2".toList), ("shop".toList, "a:1".toList)]
      "shop".toList).1.trans (by decide),
   (runRecords_count
      [("shop".toList, "a:1".toList), ("bank".toList, "c:3".toList),
       ("shop".toList, "b:2".toList), ("shop".toList, "a:1".toList)]
      "mail".toList).2 (by decide)⟩

/-- C10. The dedup key is injective on parsed records: for two lines that both parse, the
credentials `login + ":" + password` are equal exactly when the logins are equal and the
passwords are equal. Hence two matched records reported under one keyword, starting from
the empty state, end as one entry of its result set exactly when both fields coincide,
and as two entries otherwise. -/
theorem credentials_injective (lower : Char → Char)
    (line₁ line₂ url₁ login₁ password₁ url₂ login₂ password₂ : GoString)
    (h₁ : parseLine lower line₁ = some (url₁, login₁, password₁))
    (h₂ : parseLine lower line₂ = some (url₂, login₂, password₂)) :
    (Sprintf login₁ password₁ = Sprintf login₂ password₂ ↔
      login₁ = login₂ ∧ password₁ = password₂) ∧
    (∀ K, (record K (Sprintf login₂ password₂)
        (record K (Sprintf login₁ password₁) State.empty)).uniqueCount K =
      if login₁ = login₂ ∧ password₁ = password₂ then 1 else 2) := by
  obtain ⟨_, _, _, hl₁, _⟩ := parseLine_eq_some lower line₁ _ _ _ h₁
  obtain ⟨_, _, _, hl₂, _⟩ := parseLine_eq_some lower line₂ _ _ _ h₂
  have hinj := Sprintf_injective login₁ password₁ login₂ password₂ hl₁ hl₂
  refine ⟨hinj, fun K => ?_⟩
  have hset : (record K (Sprintf login₂ password₂)
      (record K (Sprintf login₁ password₁) State.empty)).resultSets.lookup K =
      some {Sprintf login₂ password₂, Sprintf login₁ password₁} := by
    simp [lookup_record_resultSets, State.empty, Finmap.lookup_empty]
  rw [State.uniqueCount, hset]
  by_cases h : login₁ = login₂ ∧ password₁ = password₂
  · rw [if_pos h]
    rw [hinj.mpr h]
    simp
  · rw [if_neg h]
    have hne : Sprintf login₂ password₂ ≠ Sprintf login₁ password₁ :=
      fun e => h (hinj.mp e.symm)
    simp [Finset.card_pair hne]

/-- C10 on two lines with the same login and different passwords: the credentials
differ and both stay in the result set. -/
theorem credentials_injective_witness :
    parseLine Char.toLower "shop.com:alice:pw1".toList =
      some ("shop.com".toList, "alice".toList, "pw1".toList) ∧
    parseLine Char.toLower "SHOP.com:alice:pw:1".toList =
      some ("shop.com".toList, "alice".toList, "pw:1".toList) ∧
    (Sprintf "alice".toList "pw1".toList = Sprintf "alice".toList "pw:1".toList ↔
      "alice".toList = "alice".toList ∧ "pw1".toList = "pw:1".toList) ∧
    (record "shop".toList (Sprintf "alice".toList "pw:1".toList)
        (record "shop".toList (Sprintf "alice".toList "pw1".toList)
          State.empty)).uniqueCount "shop".toList = 2 :=
  ⟨by decide, by decide,
   (credentials_injective Char.toLower "shop.com:alice:pw1".toList
      "SHOP.com:alice:pw:1".toList "shop.com".toList "alice".toList "pw1".toList
      "shop.com".toList "alice".toList "pw:1".toList (by decide) (by decide)).1,
   ((credentials_injective Char.toLower "shop.com:alice:pw1".toList
      "SHOP.com:alice:pw:1".toList "shop.com".toList "alice".toList "pw1".toList
      "shop.com".toList "alice".toList "pw:1".toList (by decide) (by decide)).2
      "shop".toList).trans (by decide)⟩

/-- C7, order independence. Every mutex-guarded update being one atomic step: for every
keyword list, every family of files and every starting state, any two interleavings of
the aggregator steps of the files, and more generally any two rearrangements of those
steps, end in the same aggregate state; two aggregator steps commute; and whatever the
order of the files and the interleaving of their scans, starting from the empty state the
counter of a keyword `K` is the number `M` of lines of all files attributed to `K` and the
size of its result set is the number `U` of distinct credentials of those lines. -/
theorem aggregation_order_independent (lower : Char → Char) (keywords : List GoString)
    (files : List (List GoString)) (st : State) :
    (∀ sched₁ sched₂ : List (GoString × GoString),
      Interleaving (files.map (fileCalls lower keywords)) sched₁ →
      Interleaving (files.map (fileCalls lower keywords)) sched₂ →
      runRecords sched₁ st = runRecords sched₂ st) ∧
    (∀ sched₁ sched₂ : List (GoString × GoString),
      sched₁.Perm (files.map (fileCalls lower keywords)).flatten →
      sched₂.Perm (files.map (fileCalls lower keywords)).flatten →
      runRecords sched₁ st = runRecords sched₂ st) ∧
    (∀ sched : List (GoString × GoString),
      Interleaving (files.map (fileCalls lower keywords)) sched →
      runRecords sched st = processFile lower keywords files.flatten st) ∧
    (∀ k₁ c₁ k₂ c₂ : GoString,
      record k₂ c₂ (record k₁ c₁ st) = record k₁ c₁ (record k₂ c₂ st)) ∧
    (∀ (files' : List (List GoString)) (sched : List (GoString × GoString)) (K : GoString),
      files'.Perm files →
      Interleaving (files'.map (fileCalls lower keywords)) sched →
      (runRecords sched State.empty).matchCounter K =
        (Spec.linesOf lower keywords K files.flatten).length ∧
      (runRecords sched State.empty).uniqueCount K =
        ((Spec.linesOf lower keywords K files.flatten).map Spec.credential).toFinset.card) := by
  have hperm : ∀ sched₁ sched₂ : List (GoString × GoString),
      sched₁.Perm (files.map (fileCalls lower keywords)).flatten →
      sched₂.Perm (files.map (fileCalls lower keywords)).flatten →
      runRecords sched₁ st = runRecords sched₂ st :=
    fun sched₁ sched₂ h₁ h₂ => runRecords_perm sched₁ sched₂ st (h₁.trans h₂.symm)
  refine ⟨fun sched₁ sched₂ h₁ h₂ => hperm sched₁ sched₂ h₁.perm h₂.perm, hperm, ?_,
    fun k₁ c₁ k₂ c₂ => record_comm k₂ c₂ k₁ c₁ st, ?_⟩
  · intro sched h
    rw [processFile_eq_runRecords, runRecords_perm sched _ st h.perm, fileCalls_flatten]
    rfl
  · intro files' sched K hfiles h
    have hs : sched.Perm (fileCalls lower keywords files.flatten) := by
      rw [← fileCalls_flatten]
      exact h.perm.trans (List.Perm.flatten (List.Perm.map _ hfiles))
    have hrun : runRecords sched State.empty =
        processFile lower keywords files.flatten State.empty := by
      rw [processFile_eq_runRecords, runRecords_perm sched _ State.empty hs]
      rfl
    have hc := processFile_matchCounter lower keywords files.flatten K State.empty
    have hr := processFile_resultSet lower keywords files.flatten K State.empty
    rw [State.empty_matchCounter] at hc
    rw [State.empty_resultSet] at hr
    simp only [State.resultSet] at hr
    rw [hrun, State.uniqueCount, hr, hc]
    constructor
    · simp
    · by_cases hL : Spec.linesOf lower keywords K files.flatten = []
      · simp [hL]
      · simp [hL]

/-- C7 on two files scanned under keyword `shop`: the first holds `shop.com:alice:pw1`
and `myshop.org:bob:pw2`, the second `SHOP.com:alice:pw1`. The schedule that runs the
first step of the first file, then the step of the second file, then the second step of
the first file ends in the same state as scanning the files one after another, with
count 3 and 2 unique credentials. -/
theorem aggregation_order_independent_witness :
    Interleaving
      ([["shop.com:alice:pw1".toList, "myshop.org:bob:pw2".toList],
        ["SHOP.com:alice:pw1".toList]].map (fileCalls Char.toLower ["shop".toList]))
      [("shop".toList, "alice:pw1".toList), ("shop".toList, "alice:pw1".toList),
       ("shop".toList, "bob:pw2".toList)] ∧
    runRecords
      [("shop".toList, "alice:pw1".toList), ("shop".toList, "alice:pw1".toList),
       ("shop".toList, "bob:pw2".toList)] State.empty =
      processFile Char.toLower ["shop".toList]
        [["shop.com:alice:pw1".toList, "myshop.org:bob:pw2".toList],
         ["SHOP.com:alice:pw1".toList]].flatten State.empty ∧
    (runRecords
      [("shop".toList, "alice:pw1".toList), ("shop".toList, "alice:pw1".toList),
       ("shop".toList, "bob:pw2".toList)] State.empty).matchCounter "shop".toList = 3 ∧
    (runRecords
      [("shop".toList, "alice:pw1".toList), ("shop".toList, "alice:pw1".toList),
       ("shop".toList, "bob:pw2".toList)] State.empty).uniqueCount "shop".toList = 2 := by
  have hsched : Interleaving
      ([["shop.com:alice:pw1".toList, "myshop.org:bob:pw2".toList],
        ["SHOP.com:alice:pw1".toList]].map (fileCalls Char.toLower ["shop".toList]))
      [("shop".toList, "alice:pw1".toList), ("shop".toList, "alice:pw1".toList),
       ("shop".toList, "bob:pw2".toList)] := by
    have hcalls : [["shop.com:alice:pw1".toList, "myshop.org:bob:pw2".toList],
        ["SHOP.com:alice:pw1".toList]].map (fileCalls Char.toLower ["shop".toList]) =
        [[("shop".toList, "alice:pw1".toList), ("shop".toList, "bob:pw2".toList)],
         [("shop".toList, "alice:pw1".toList)]] := by decide
    rw [hcalls]
    exact Interleaving.step [] [[("shop".toList, "alice:pw1".toList)]]
      [("shop".toList, "bob:pw2".toList)] ("shop".toList, "alice:pw1".toList) _
      (Interleaving.step [[("shop".toList, "bob:pw2".toList)]] [] []
        ("shop".toList, "alice:pw1".toList) _
        (Interleaving.step [] [[]] [] ("shop".toList, "bob:pw2".toList) _
          (Interleaving.done _ (by simp))))
  have h := aggregation_order_independent Char.toLower ["shop".toList]
    [["shop.com:alice:pw1".toList, "myshop.org:bob:pw2".toList],
     ["SHOP.com:alice:pw1".toList]] State.empty
  exact ⟨hsched, h.2.2.1 _ hsched,
    (h.2.2.2.2 _ _ "shop".toList (List.Perm.refl _) hsched).1.trans (by decide),
    (h.2.2.2.2 _ _ "shop".toList (List.Perm.refl _) hsched).2.trans (by decide)⟩

/-- C9, as amended. In every state reached from the empty state by the per-line step, for
any keyword list and lines: the keys of `resultSets` are exactly the keywords with a match
counter of at least 1; every key is a keyword of the list and its result set has at least
1 and at most counter-many entries. Hence the drain loop, whatever the outcomes of
`os.Create`, attempts an output for exactly the keywords with at least one match: it
writes the output for exactly those of them whose file can be created, and for exactly the
others it reports the failure and writes nothing. Every output written is for a keyword of
the list, holds the whole result set of its keyword, reports its counter and its size, and
is never empty; when every file can be created, the outputs are for exactly the keywords
with at least one match. -/
theorem drain_invariant (lower : Char → Char) (keywords lines : List GoString)
    (create : GoString → Bool) (st : State)
    (hst : st = processFile lower keywords lines State.empty) :
    (∀ K, K ∈ st.resultSets.keys ↔ 1 ≤ st.matchCounter K) ∧
    (∀ K, K ∈ st.resultSets.keys →
      K ∈ keywords ∧ 1 ≤ st.uniqueCount K ∧ st.uniqueCount K ≤ st.matchCounter K) ∧
    (∀ K, (∃ o, DrainResult.written o ∈ drain create st ∧ o.keyword = K) ↔
      (1 ≤ st.matchCounter K ∧ create K = true)) ∧
    (∀ K, DrainResult.createFailed K ∈ drain create st ↔
      (1 ≤ st.matchCounter K ∧ create K = false)) ∧
    (∀ o, DrainResult.written o ∈ drain create st →
      o.keyword ∈ keywords ∧ o.fileLines ≠ ∅ ∧
      st.resultSet o.keyword = some o.fileLines ∧ o.count = st.matchCounter o.keyword ∧
      o.unique = st.uniqueCount o.keyword ∧ 1 ≤ o.unique ∧ o.unique ≤ o.count) ∧
    ((∀ K, create K = true) →
      ∀ K, (∃ o, DrainResult.written o ∈ drain create st ∧ o.keyword = K) ↔
        1 ≤ st.matchCounter K) := by
  subst hst
  have hkeys : ∀ K, K ∈ (processFile lower keywords lines State.empty).resultSets.keys ↔
      1 ≤ (processFile lower keywords lines State.empty).matchCounter K := by
    intro K
    rw [Finmap.mem_keys, ← Finmap.lookup_isSome]
    rcases processFile_empty_cases lower keywords lines K with ⟨h1, h2⟩ | ⟨s, h1, _, h3, h4⟩
    · simp [h1, h2]
    · simp only [h1, Option.isSome_some, true_iff]
      omega
  have hwritten : ∀ K,
      (∃ o, DrainResult.written o ∈ drain create
          (processFile lower keywords lines State.empty) ∧ o.keyword = K) ↔
      (1 ≤ (processFile lower keywords lines State.empty).matchCounter K ∧
        create K = true) := by
    intro K
    rcases processFile_empty_cases lower keywords lines K with ⟨h1, h2⟩ | ⟨s, h1, _, h3, h4⟩
    · constructor
      · rintro ⟨o, ho, rfl⟩
        rw [written_mem_drain, h1] at ho
        cases ho.2.1
      · rintro ⟨h, _⟩
        omega
    · constructor
      · rintro ⟨o, ho, rfl⟩
        rw [written_mem_drain] at ho
        exact ⟨by omega, ho.1⟩
      · rintro ⟨_, hc⟩
        exact ⟨⟨K, s, (processFile lower keywords lines State.empty).matchCounter K, s.card⟩,
          (written_mem_drain _ _ _).mpr ⟨hc, h1, rfl, rfl⟩, rfl⟩
  refine ⟨hkeys, fun K hK => ?_, hwritten, fun K => ?_, fun o ho => ?_, fun hall K => ?_⟩
  · rw [Finmap.mem_keys, ← Finmap.lookup_isSome] at hK
    rcases processFile_empty_cases lower keywords lines K with ⟨h1, _⟩ | ⟨s, h1, h2, h3, h4⟩
    · simp [h1] at hK
    · simp only [State.uniqueCount, h1, Option.getD_some]
      exact ⟨h2, h3, h4⟩
  · rw [createFailed_mem_drain, hkeys]
    exact and_comm
  · rw [written_mem_drain] at ho
    obtain ⟨_, ho1, ho2, ho3⟩ := ho
    rcases processFile_empty_cases lower keywords lines o.keyword with
      ⟨h1, _⟩ | ⟨s, h1, h2, h3, h4⟩
    · rw [h1] at ho1
      cases ho1
    · rw [h1] at ho1
      have hs : s = o.fileLines := by simpa using ho1
      subst hs
      refine ⟨h2, ?_, h1, ho2, ?_, ?_, ?_⟩
      · intro he
        rw [he] at h3
        simp at h3
      · simp only [State.uniqueCount, h1, Option.getD_some]
        exact ho3
      · omega
      · omega
  · rw [hwritten K]
    simp [hall K]

/-- C9, as amended, on a scan with the keywords `shop.com/login`, `bank` and `shop` and the
lines `shop.com/login:alice:pw1`, `myshop.org:bob:pw2` and `notaline`, the output
directory being new: `shop.com/login` and `shop` have one match each and `bank` none; the
drain writes the output for `shop`, reports the failure to create the file of
`shop.com/login`, and does nothing for `bank`. -/
theorem drain_invariant_witness :
    drain createInFreshDir
      (processFile Char.toLower ["shop.com/login".toList, "bank".toList, "shop".toList]
        ["shop.com/login:alice:pw1".toList, "myshop.org:bob:pw2".toList,
         "notaline".toList] State.empty) =
      {DrainResult.written ⟨"shop".toList, {"bob:pw2".toList}, 1, 1⟩,
       DrainResult.createFailed "shop.com/login".toList} ∧
    ("shop".toList ∈
      (processFile Char.toLower ["shop.com/login".toList, "bank".toList, "shop".toList]
        ["shop.com/login:alice:pw1".toList, "myshop.org:bob:pw2".toList,
         "notaline".toList] State.empty).resultSets.keys ↔
      1 ≤ (processFile Char.toLower ["shop.com/login".toList, "bank".toList, "shop".toList]
        ["shop.com/login:alice:pw1".toList, "myshop.org:bob:pw2".toList,
         "notaline".toList] State.empty).matchCounter "shop".toList) ∧
    (DrainResult.createFailed "shop.com/login".toList ∈ drain createInFreshDir
      (processFile Char.toLower ["shop.com/login".toList, "bank".toList, "shop".toList]
        ["shop.com/login:alice:pw1".toList, "myshop.org:bob:pw2".toList,
         "notaline".toList] State.empty) ↔
      (1 ≤ (processFile Char.toLower ["shop.com/login".toList, "bank".toList, "shop".toList]
        ["shop.com/login:alice:pw1".toList, "myshop.org:bob:pw2".toList,
         "notaline".toList] State.empty).matchCounter "shop.com/login".toList ∧
       createInFreshDir "shop.com/login".toList = false)) ∧
    (processFile Char.toLower ["shop.com/login".toList, "bank".toList, "shop".toList]
        ["shop.com/login:alice:pw1".toList, "myshop.org:bob:pw2".toList,
         "notaline".toList] State.empty).matchCounter "bank".toList = 0 :=
  ⟨by decide,
   (drain_invariant Char.toLower ["shop.com/login".toList, "bank".toList, "shop".toList]
      ["shop.com/login:alice:pw1".toList, "myshop.org:bob:pw2".toList,
       "notaline".toList] createInFreshDir _ rfl).1 "shop".toList,
   (drain_invariant Char.toLower ["shop.com/login".toList, "bank".toList, "shop".toList]
      ["shop.com/login:alice:pw1".toList, "myshop.org:bob:pw2".toList,
       "notaline".toList] createInFreshDir _ rfl).2.2.2.1 "shop.com/login".toList,
   by decide⟩

/-- C9 as first stated fails: with the keyword `shop.com/login`, loaded as written, and
the line `shop.com/login:alice:pw1`, the output directory being new, the keyword has one
match and is a key of `resultSets`, and yet the drain writes no output for it: all it
does is report that the file could not be created. -/
theorem drain_skips_matched_keyword :
    loadKeywords ["shop.com/login".toList] = ["shop.com/login".toList] ∧
    1 ≤ (processFile Char.toLower (loadKeywords ["shop.com/login".toList])
      ["shop.com/login:alice:pw1".toList] State.empty).matchCounter
        "shop.com/login".toList ∧
    "shop.com/login".toList ∈
      (processFile Char.toLower (loadKeywords ["shop.com/login".toList])
        ["shop.com/login:alice:pw1".toList] State.empty).resultSets.keys ∧
    drain createInFreshDir
      (processFile Char.toLower (loadKeywords ["shop.com/login".toList])
        ["shop.com/login:alice:pw1".toList] State.empty) =
      {DrainResult.createFailed "shop.com/login".toList} ∧
    ¬ ((∃ o, DrainResult.written o ∈ drain createInFreshDir
          (processFile Char.toLower (loadKeywords ["shop.com/login".toList])
            ["shop.com/login:alice:pw1".toList] State.empty) ∧
          o.keyword = "shop.com/login".toList) ↔
        1 ≤ (processFile Char.toLower (loadKeywords ["shop.com/login".toList])
          ["shop.com/login:alice:pw1".toList] State.empty).matchCounter
            "shop.com/login".toList) := by
  have hdrain : drain createInFreshDir
      (processFile Char.toLower (loadKeywords ["shop.com/login".toList])
        ["shop.com/login:alice:pw1".toList] State.empty) =
      {DrainResult.createFailed "shop.com/login".toList} := by decide
  have hcount : 1 ≤ (processFile Char.toLower (loadKeywords ["shop.com/login".toList])
      ["shop.com/login:alice:pw1".toList] State.empty).matchCounter
        "shop.com/login".toList := by decide
  refine ⟨by decide, hcount, by decide, hdrain, ?_⟩
  rw [hdrain]
  intro h
  obtain ⟨o, ho, _⟩ := h.mpr hcount
  simp at ho

end GoTXT
